import Mathlib

/-!
Verification of the vid_player decode-and-synchronization pipeline
(src/vid_player/src/main.rs) against its specification.

The embedding is shallow: the pure data transformations of the pipeline are
translated into Lean functions; the stateful presenter and audio-callback loops
become explicit state passing; f64 presentation timestamps and f32 samples are
modelled as rationals; fallible operations return Option, where `none` models
either a Rust panic or a skipped unit, as documented at each definition.
External decoder/scaler/resampler outputs are inputs of the model: each worker
is a function of the sequence of frames the external library hands it.
-/

namespace VidPlayer

/-- Look-ahead depth of the presenter's local frame buffer (main.rs line 18). -/
def FRAME_BUFFER_SIZE : Nat := 30

/-- Capacity, in decoded audio chunks, of the audio chunk channel (main.rs lines 19 and 671). -/
def AUDIO_BUFFER_SIZE : Nat := 1000

/-- Decoded video frame as published on the video-frame channel (main.rs 22-25):
presentation timestamp in seconds (f64 in the source, modelled as ℚ) plus owned
RGBA pixel bytes. -/
structure VideoFrame where
  pts : ℚ
  video_data : List Nat
deriving DecidableEq, Repr

/-- Decoded audio chunk as published on the audio-chunk channel (main.rs 27-30):
presentation timestamp plus interleaved f32 samples (modelled as ℚ). -/
structure AudioFrame where
  pts : ℚ
  samples : List ℚ
deriving DecidableEq, Repr

/-- Master clock (main.rs 32-48): an atomic counter of samples played by the
output device plus the fixed output sample rate. -/
structure AudioClock where
  samples_played : Nat
  sample_rate : Nat
deriving DecidableEq, Repr

/-- AudioClock::time (main.rs 45-47): samples_played / sample_rate. -/
def AudioClock.time (c : AudioClock) : ℚ :=
  (c.samples_played : ℚ) / (c.sample_rate : ℚ)

/-- Effect on the clock of one fetch_add performed by the audio output callback
(main.rs 467). -/
def AudioClock.advance (c : AudioClock) (frames : Nat) : AudioClock :=
  ⟨c.samples_played + frames, c.sample_rate⟩

lemma AudioClock.time_nonneg (c : AudioClock) : 0 ≤ c.time := by
  unfold AudioClock.time
  positivity

/-- The clock never goes backwards: the callback only adds to samples_played. -/
lemma AudioClock.time_advance_mono (c : AudioClock) (frames : Nat) :
    c.time ≤ (c.advance frames).time := by
  unfold AudioClock.time AudioClock.advance
  apply div_le_div_of_nonneg_right ?_ (Nat.cast_nonneg _)
  exact_mod_cast Nat.le_add_right _ _

/-! ## Audio output callback (main.rs 444-472, F32 arm)

The callback first drains every chunk currently available on the audio-chunk
channel into its local `sample_queue` (an unbounded VecDeque), then fills every
element of the device's output slice by popping the queue front, writing
silence (0.0) when the queue is empty.  Each written element is tagged with
whether it came from the queue (`true`) or is silence (`false`); the count of
`false` tags is the underflow count the source merely logs. -/

/-- Fill phase of the callback (main.rs 451-459): pop the queue front into each
output slot, or write silence. Returns the written slice and the remaining queue. -/
def fillData : List ℚ → Nat → List (ℚ × Bool) × List ℚ
  | q, 0 => ([], q)
  | [], n + 1 =>
    let r := fillData [] n
    ((0, false) :: r.1, r.2)
  | v :: q, n + 1 =>
    let r := fillData q n
    ((v, true) :: r.1, r.2)

/-- Drain phase of the callback (main.rs 447-449): try_recv every pending chunk
and extend the local sample queue with its samples. -/
def drainChannel (queue : List ℚ) (pending : List AudioFrame) : List ℚ :=
  pending.foldl (fun q c => q ++ c.samples) queue

/-- One invocation of the F32 output callback: drain the channel, then fill an
output slice of length n. -/
def audioCallbackF32 (pending : List AudioFrame) (queue : List ℚ) (n : Nat) :
    List (ℚ × Bool) × List ℚ :=
  fillData (drainChannel queue pending) n

/-- Extension of the sample queue by one received chunk (main.rs 447-449):
VecDeque::extend appends every sample; the queue is unbounded, nothing is
ever rejected and no written-count is returned. -/
def enqueueChunk (queue : List ℚ) (samples : List ℚ) : List ℚ :=
  queue ++ samples

lemma drainChannel_eq (queue : List ℚ) (pending : List AudioFrame) :
    drainChannel queue pending = queue ++ (pending.map (fun c => c.samples)).flatten := by
  induction pending generalizing queue with
  | nil => simp [drainChannel]
  | cons c cs ih =>
    simp only [drainChannel, List.foldl_cons, List.map_cons, List.flatten_cons] at *
    rw [ih (queue ++ c.samples), List.append_assoc]

lemma fillData_fst (q : List ℚ) (n : Nat) :
    (fillData q n).1 =
      (q.take n).map (fun v => (v, true)) ++ List.replicate (n - q.length) ((0 : ℚ), false) := by
  induction n generalizing q with
  | zero => simp [fillData]
  | succ n ih =>
    cases q with
    | nil => simp [fillData, ih, List.replicate_succ]
    | cons v q => simp [fillData, ih q, Nat.succ_sub_succ]

lemma fillData_snd (q : List ℚ) (n : Nat) : (fillData q n).2 = q.drop n := by
  induction n generalizing q with
  | zero => simp [fillData]
  | succ n ih =>
    cases q with
    | nil => simp [fillData, ih]
    | cons v q => simp [fillData, ih q]

lemma fillData_length (q : List ℚ) (n : Nat) : (fillData q n).1.length = n := by
  rw [fillData_fst]
  simp [List.length_take]
  omega

/-- C3: the F32 audio output callback writes every element of the requested
slice: element i receives the i-th sample of the (freshly drained) queue when
available, and silence otherwise, so exactly n elements are written.  The
callback is a total function of the queue and the chunks already available on
the channel — it never waits for more data, which is the shallow rendering of
"never blocks". -/
theorem audio_callback_fills_whole_slice (pending : List AudioFrame) (queue : List ℚ) (n : Nat) :
    (audioCallbackF32 pending queue n).1.length = n ∧
    (audioCallbackF32 pending queue n).1 =
      ((drainChannel queue pending).take n).map (fun v => (v, true)) ++
        List.replicate (n - (drainChannel queue pending).length) ((0 : ℚ), false) :=
  ⟨fillData_length _ n, fillData_fst _ n⟩

/-- Counterexample to C4 as stated: the code has no fixed-capacity audio buffer
with a partial-write contract.  The callback's sample queue is unbounded and a
write of 1500 samples appends all 1500 of them, never 1000. -/
theorem audio_write_partial_counterexample :
    (enqueueChunk [] (List.replicate 1500 (0 : ℚ))).length = 1500 ∧ (1500 : Nat) ≠ 1000 := by
  constructor
  · rw [enqueueChunk, List.nil_append, List.length_replicate]
  · decide

/-- C4 amended: every write into the sample queue appends all of its samples
(the count written always equals the requested length, so no retry ever
happens), and the unread data already queued is preserved unchanged in front
of the new samples. -/
theorem audio_write_appends_all (queue samples : List ℚ) :
    (enqueueChunk queue samples).length = queue.length + samples.length ∧
    (enqueueChunk queue samples).take queue.length = queue ∧
    (enqueueChunk queue samples).drop queue.length = samples := by
  refine ⟨by simp [enqueueChunk], ?_, ?_⟩ <;>
    simp [enqueueChunk, List.take_left, List.drop_left]

/-! ## FIFO delivery through the sample queue (C8) -/

/-- One scheduled invocation of the audio callback: the chunks that have become
available on the channel since the previous invocation, and the length of the
output slice the device asks for. -/
structure CallbackCall where
  pending : List AudioFrame
  n : Nat
deriving Repr

/-- A sequence of audio-callback invocations threaded through the persistent
sample queue, concatenating everything written to the device. -/
def runCallbacks : List ℚ → List CallbackCall → List (ℚ × Bool) × List ℚ
  | q, [] => ([], q)
  | q, c :: cs =>
    let r := audioCallbackF32 c.pending q c.n
    let rest := runCallbacks r.2 cs
    (r.1 ++ rest.1, rest.2)

/-- The real (non-silence) samples of a written slice, in written order. -/
def realSamples (out : List (ℚ × Bool)) : List ℚ :=
  (out.filter (fun p => p.2)).map (fun p => p.1)

/-- Concatenation, in enqueue order, of the samples of every chunk delivered
across a sequence of callback invocations. -/
def chunkConcat (calls : List CallbackCall) : List ℚ :=
  (calls.map (fun c => (c.pending.map (fun a => a.samples)).flatten)).flatten

lemma realSamples_append (a b : List (ℚ × Bool)) :
    realSamples (a ++ b) = realSamples a ++ realSamples b := by
  simp [realSamples]

lemma realSamples_map_true (l : List ℚ) :
    realSamples (l.map (fun v => (v, true))) = l := by
  unfold realSamples
  induction l with
  | nil => rfl
  | cons v t ih => simpa using ih

lemma realSamples_replicate_false (k : Nat) :
    realSamples (List.replicate k ((0 : ℚ), false)) = [] := by
  unfold realSamples
  rw [List.filter_replicate]
  simp

lemma realSamples_fillData (q : List ℚ) (n : Nat) :
    realSamples (fillData q n).1 = q.take n := by
  rw [fillData_fst, realSamples_append, realSamples_map_true, realSamples_replicate_false,
    List.append_nil]

lemma fillData_conservation (q : List ℚ) (n : Nat) :
    realSamples (fillData q n).1 ++ (fillData q n).2 = q := by
  rw [realSamples_fillData, fillData_snd, List.take_append_drop]

lemma runCallbacks_conservation (calls : List CallbackCall) (q : List ℚ) :
    realSamples (runCallbacks q calls).1 ++ (runCallbacks q calls).2 =
      q ++ chunkConcat calls := by
  induction calls generalizing q with
  | nil => simp [runCallbacks, chunkConcat, realSamples]
  | cons c cs ih =>
    simp only [runCallbacks, audioCallbackF32]
    rw [realSamples_append, List.append_assoc, ih, ← List.append_assoc,
      fillData_conservation, drainChannel_eq, List.append_assoc]
    simp only [chunkConcat, List.map_cons, List.flatten_cons]

/-- C8: samples flow through the callback's sample queue in FIFO order.
Starting from an empty queue, the real (non-silence) samples emitted to the
device followed by the samples still queued equal the concatenation of the
enqueued chunks' samples in enqueue order; in particular once the queue has
been fully consumed, the emitted real samples are exactly that concatenation. -/
theorem audio_fifo_order (calls : List CallbackCall) :
    realSamples (runCallbacks [] calls).1 ++ (runCallbacks [] calls).2 = chunkConcat calls ∧
    ((runCallbacks [] calls).2 = [] →
      realSamples (runCallbacks [] calls).1 = chunkConcat calls) := by
  have h := runCallbacks_conservation calls []
  rw [List.nil_append] at h
  refine ⟨h, fun he => ?_⟩
  rw [he, List.append_nil] at h
  exact h

/-- Witness for C8 at a concrete input: two chunks totalling three samples,
consumed by two callback invocations of total length three. -/
theorem audio_fifo_order_witness :
    realSamples (runCallbacks [] [⟨[⟨0, [1, 2]⟩], 2⟩, ⟨[⟨1, [3]⟩], 1⟩]).1 =
      chunkConcat [⟨[⟨0, [1, 2]⟩], 2⟩, ⟨[⟨1, [3]⟩], 1⟩] :=
  (audio_fifo_order [⟨[⟨0, [1, 2]⟩], 2⟩, ⟨[⟨1, [3]⟩], 1⟩]).2 (by decide)

/-! ## Demuxer (main.rs 158-189, C6)

The demux thread reads packets in container order, forwards each to the channel
matching its stream index, returns early when a send fails (receiver gone), and
after the iterator is exhausted sends one end-of-stream marker (None) on each
channel.  A channel is modelled by the list of messages its receiver observes;
a Bool per channel says whether its receiver is still alive for the whole run
(a send to a dead channel fails). -/

/-- Compressed packet: stream index plus an opaque payload tag. -/
structure Packet where
  stream : Nat
  payload : Nat
deriving DecidableEq, Repr

/-- Packet-forwarding loop of the demux thread (main.rs 174-184).  Returns the
messages delivered on the video and audio packet channels and whether the loop
ran to completion (no send failure). -/
def demuxLoop (vIdx aIdx : Nat) (vOpen aOpen : Bool) :
    List Packet → List (Option Packet) × List (Option Packet) × Bool
  | [] => ([], [], true)
  | p :: rest =>
    if p.stream = vIdx then
      if vOpen then
        let r := demuxLoop vIdx aIdx vOpen aOpen rest
        (some p :: r.1, r.2.1, r.2.2)
      else ([], [], false)
    else if p.stream = aIdx then
      if aOpen then
        let r := demuxLoop vIdx aIdx vOpen aOpen rest
        (r.1, some p :: r.2.1, r.2.2)
      else ([], [], false)
    else demuxLoop vIdx aIdx vOpen aOpen rest

/-- Whole demux thread (main.rs 160-189): run the loop; if it completed, send
one EOF marker on each channel (the markers' send results are discarded, so a
marker reaches a channel only if that receiver is alive). -/
def demuxRun (vIdx aIdx : Nat) (vOpen aOpen : Bool) (packets : List Packet) :
    List (Option Packet) × List (Option Packet) × Bool :=
  let r := demuxLoop vIdx aIdx vOpen aOpen packets
  if r.2.2 then
    (r.1 ++ (if vOpen then [none] else []),
     r.2.1 ++ (if aOpen then [none] else []), true)
  else r

/-- C6: when both receivers stay alive (so the packet iterator is exhausted
without a send failure), the demuxer delivers every video packet in order
followed by exactly one end-of-stream marker on the video channel, every audio
packet followed by exactly one marker on the audio channel, and terminates;
in particular each channel carries the marker exactly once. -/
theorem demux_eof_markers_once (vIdx aIdx : Nat) (packets : List Packet)
    (hne : vIdx ≠ aIdx) :
    (demuxRun vIdx aIdx true true packets).1 =
      (packets.filter (fun p => p.stream = vIdx)).map some ++ [none] ∧
    (demuxRun vIdx aIdx true true packets).2.1 =
      (packets.filter (fun p => p.stream = aIdx)).map some ++ [none] ∧
    (demuxRun vIdx aIdx true true packets).2.2 = true ∧
    (demuxRun vIdx aIdx true true packets).1.count none = 1 ∧
    (demuxRun vIdx aIdx true true packets).2.1.count none = 1 := by
  have hloop : ∀ ps : List Packet,
      (demuxLoop vIdx aIdx true true ps).1 =
        (ps.filter (fun p => p.stream = vIdx)).map some ∧
      (demuxLoop vIdx aIdx true true ps).2.1 =
        (ps.filter (fun p => p.stream = aIdx)).map some ∧
      (demuxLoop vIdx aIdx true true ps).2.2 = true := by
    intro ps
    induction ps with
    | nil => exact ⟨rfl, rfl, rfl⟩
    | cons p rest ih =>
      by_cases hv : p.stream = vIdx
      · have hna : ¬ p.stream = aIdx := fun h => hne (hv.symm.trans h)
        simp [demuxLoop, hv, hna, hne, hne.symm, ih.1, ih.2.1, ih.2.2]
      · by_cases ha : p.stream = aIdx
        · simp [demuxLoop, hv, ha, hne, hne.symm, ih.1, ih.2.1, ih.2.2]
        · simp [demuxLoop, hv, ha, ih.1, ih.2.1, ih.2.2]
  obtain ⟨h1, h2, h3⟩ := hloop packets
  have hrun1 : (demuxRun vIdx aIdx true true packets).1 =
      (packets.filter (fun p => p.stream = vIdx)).map some ++ [none] := by
    simp [demuxRun, h3, h1]
  have hrun2 : (demuxRun vIdx aIdx true true packets).2.1 =
      (packets.filter (fun p => p.stream = aIdx)).map some ++ [none] := by
    simp [demuxRun, h3, h2]
  have hcount : ∀ l : List Packet, ((l.map some) ++ [(none : Option Packet)]).count none = 1 := by
    intro l
    rw [List.count_append]
    have : (l.map some).count (none : Option Packet) = 0 := by
      rw [List.count_eq_zero]
      intro h
      rcases List.mem_map.mp h with ⟨x, _, hx⟩
      exact Option.noConfusion hx
    rw [this]
    rfl
  refine ⟨hrun1, hrun2, by simp [demuxRun, h3], ?_, ?_⟩
  · rw [hrun1]; exact hcount _
  · rw [hrun2]; exact hcount _

/-- Witness for C6 at a concrete input: streams 0 (video) and 1 (audio), three
packets, one of an unrelated stream. -/
theorem demux_eof_markers_once_witness :
    (demuxRun 0 1 true true [⟨0, 7⟩, ⟨2, 8⟩, ⟨1, 9⟩]).1 = [some ⟨0, 7⟩, none] ∧
    (demuxRun 0 1 true true [⟨0, 7⟩, ⟨2, 8⟩, ⟨1, 9⟩]).2.1 = [some ⟨1, 9⟩, none] := by
  have h := demux_eof_markers_once 0 1 [⟨0, 7⟩, ⟨2, 8⟩, ⟨1, 9⟩] (by decide)
  exact ⟨by rw [h.1]; decide, by rw [h.2.1]; decide⟩

/-! ## Video decode worker (main.rs 191-251)

The worker feeds packets (in demuxer order) to the external decoder and, after
each packet and after EOF, drains every frame the decoder makes available.  In
the shallow embedding the worker is a function of the sequence of frames the
decoder hands it, each carrying the decoder-reported native pts and the result
of scaler.run for that frame. -/

/-- Destination frame after a successful scaler.run: plane 0 stride and bytes. -/
structure ScaledFrame where
  stride : Nat
  data : List Nat
deriving DecidableEq, Repr

/-- One frame drained from the video decoder: the decoder-reported native pts
(frame.pts()) and the result of scaler.run into the RGBA destination frame —
none when the conversion failed, in which case the destination frame stays as
Video::empty() (no planes). -/
structure DecodedVideoFrame where
  nativePts : Option Int
  scaled : Option ScaledFrame
deriving DecidableEq, Repr

/-- Row copy src[src_off .. src_off + row_bytes] (main.rs 87-88); the slice
panics (none) when the source plane is too short. -/
def sliceRow (src : List Nat) (off len : Nat) : Option (List Nat) :=
  if off + len ≤ src.length then some ((src.drop off).take len) else none

/-- Row loop of video_frame_to_rgba_packed (main.rs 84-89), copying k rows
starting at row y. -/
def packRows (stride rowBytes : Nat) (src : List Nat) : Nat → Nat → Option (List Nat)
  | _, 0 => some []
  | y, k + 1 => do
    let row ← sliceRow src (y * stride) rowBytes
    let rest ← packRows stride rowBytes src (y + 1) k
    pure (row ++ rest)

/-- video_frame_to_rgba_packed (main.rs 73-91) applied to a scaled frame; none
models a panic from an out-of-range row slice. -/
def video_frame_to_rgba_packed (fr : ScaledFrame) (width height : Nat) :
    Option (List Nat) :=
  packRows fr.stride (width * 4) fr.data 0 height

/-- Native pts to seconds: frame.pts().unwrap_or(0) as f64 * time base
(main.rs 235-238 for video, 304 for audio). -/
def ptsSeconds (tb : ℚ) (nativePts : Option Int) : ℚ :=
  ((nativePts.getD 0 : ℤ) : ℚ) * tb

/-- Body of the video decode loop for one drained frame (main.rs 230-244).
The scaler.run error is discarded with .ok(); the code then unconditionally
reads stride(0) and data(0) of the destination frame and packs it.  When the
conversion failed the destination frame has no planes and stride(0)/data(0)
panic; `none` models that panic, which kills the worker thread. -/
def videoLoopBody (tb : ℚ) (width height : Nat) (f : DecodedVideoFrame) :
    Option VideoFrame :=
  match f.scaled with
  | none => none
  | some fr =>
    match video_frame_to_rgba_packed fr width height with
    | none => none
    | some data => some ⟨ptsSeconds tb f.nativePts, data⟩

/-- The video decode worker over the whole sequence of frames the decoder
produces (packet-by-packet draining plus the post-EOF flush, in decoder output
order): the frames it publishes on the video-frame channel, and whether it
survived to the end (false = a panic aborted the thread, dropping all later
frames). -/
def videoWorkerRun (tb : ℚ) (width height : Nat) :
    List DecodedVideoFrame → List VideoFrame × Bool
  | [] => ([], true)
  | f :: rest =>
    match videoLoopBody tb width height f with
    | none => ([], false)
    | some vf =>
      let r := videoWorkerRun tb width height rest
      (vf :: r.1, r.2)

/-! ## Audio decode worker (main.rs 253-368)

Symmetric to the video worker, but a resampler error or a short output plane
skips the frame (continue) instead of panicking, and after EOF the resampler is
drained, each drained chunk being stamped with the flush pts 0.0
(main.rs 342). -/

/-- One frame drained from the audio decoder: decoder-reported native pts, the
success of resampler.run, and the resampled output (out.samples() and the f32
values of plane 0, modelled as rationals). -/
structure DecodedAudioFrame where
  nativePts : Option Int
  resampleOk : Bool
  outSamples : Nat
  outData : List ℚ
deriving DecidableEq, Repr

/-- Body of the audio decode loop for one drained frame (main.rs 296-326):
resampler failure skips the frame; a plane shorter than
out.samples() * channels values skips the frame; otherwise the first
outSamples * channels values are copied and published with
pts = native pts * time base. -/
def audioLoopBody (tb : ℚ) (channels : Nat) (f : DecodedAudioFrame) :
    Option AudioFrame :=
  if f.resampleOk = false then none
  else if f.outData.length < f.outSamples * channels then none
  else some ⟨ptsSeconds tb f.nativePts, f.outData.take (f.outSamples * channels)⟩

/-- One chunk produced by draining the resampler after EOF. -/
structure DrainChunk where
  outSamples : Nat
  outData : List ℚ
deriving DecidableEq, Repr

/-- Body of the resampler drain loop (main.rs 330-364): same short-plane skip,
but every published chunk is stamped with the flush pts 0.0 (main.rs 342). -/
def drainBody (channels : Nat) (c : DrainChunk) : Option AudioFrame :=
  if c.outData.length < c.outSamples * channels then none
  else some ⟨0, c.outData.take (c.outSamples * channels)⟩

/-- Chunks emitted by the audio decode worker on the audio-chunk channel:
main-loop emissions in decoder order, then the resampler-drain emissions. -/
def audioWorkerRun (tb : ℚ) (channels : Nat) (frames : List DecodedAudioFrame)
    (drain : List DrainChunk) : List AudioFrame :=
  frames.filterMap (audioLoopBody tb channels) ++ drain.filterMap (drainBody channels)

lemma videoLoopBody_pts (tb : ℚ) (w h : Nat) (f : DecodedVideoFrame) (vf : VideoFrame)
    (hpub : videoLoopBody tb w h f = some vf) : vf.pts = ptsSeconds tb f.nativePts := by
  unfold videoLoopBody at hpub
  split at hpub
  · exact absurd hpub (by simp)
  · split at hpub
    · exact absurd hpub (by simp)
    · rw [← Option.some.inj hpub]

lemma audioLoopBody_pts (tb : ℚ) (channels : Nat) (f : DecodedAudioFrame) (af : AudioFrame)
    (hpub : audioLoopBody tb channels f = some af) : af.pts = ptsSeconds tb f.nativePts := by
  unfold audioLoopBody at hpub
  by_cases h1 : f.resampleOk = false
  · rw [if_pos h1] at hpub; exact absurd hpub (by simp)
  · rw [if_neg h1] at hpub
    by_cases h2 : f.outData.length < f.outSamples * channels
    · rw [if_pos h2] at hpub; exact absurd hpub (by simp)
    · rw [if_neg h2] at hpub
      rw [← Option.some.inj hpub]

/-- C7: every frame the video worker publishes whose decoder reported a native
pts carries pts = native pts * stream time base. -/
theorem video_pts_formula (tb : ℚ) (w h : Nat) (f : DecodedVideoFrame) (p : ℤ)
    (vf : VideoFrame) (hp : f.nativePts = some p)
    (hpub : videoLoopBody tb w h f = some vf) :
    vf.pts = (p : ℚ) * tb := by
  rw [videoLoopBody_pts tb w h f vf hpub, ptsSeconds, hp]
  rfl

/-- Witness for C7: a frame with native pts 2 and time base 1 is published with
pts = 2 * 1. -/
theorem video_pts_formula_witness :
    (⟨((2 : ℤ) : ℚ) * 1, []⟩ : VideoFrame).pts = ((2 : ℤ) : ℚ) * 1 :=
  video_pts_formula 1 0 0 ⟨some 2, some ⟨0, []⟩⟩ 2 ⟨((2 : ℤ) : ℚ) * 1, []⟩
    rfl rfl

/-- C10: a decoded frame whose decoder reports no native pts is stamped with
pts = 0 (unwrap_or(0) * time base), on both the video and the audio path; the
frame is still published (the hypotheses exhibit the published frame). -/
theorem missing_pts_stamped_zero (tb : ℚ) (w h channels : Nat)
    (fv : DecodedVideoFrame) (fa : DecodedAudioFrame)
    (vf : VideoFrame) (af : AudioFrame)
    (hv : fv.nativePts = none) (ha : fa.nativePts = none)
    (hpv : videoLoopBody tb w h fv = some vf)
    (hpa : audioLoopBody tb channels fa = some af) :
    vf.pts = 0 ∧ af.pts = 0 := by
  constructor
  · rw [videoLoopBody_pts tb w h fv vf hpv, ptsSeconds, hv]
    simp
  · rw [audioLoopBody_pts tb channels fa af hpa, ptsSeconds, ha]
    simp

/-- Witness for C10: concrete video and audio frames without native pts are
published with pts 0. -/
theorem missing_pts_stamped_zero_witness :
    ((⟨((0 : ℤ) : ℚ) * 3, []⟩ : VideoFrame).pts = 0) ∧
    ((⟨((0 : ℤ) : ℚ) * 3, []⟩ : AudioFrame).pts = 0) :=
  missing_pts_stamped_zero 3 0 0 1 ⟨none, some ⟨0, []⟩⟩ ⟨none, true, 0, []⟩
    ⟨((0 : ℤ) : ℚ) * 3, []⟩ ⟨((0 : ℤ) : ℚ) * 3, []⟩ rfl rfl rfl rfl

/-- C5 is violated by the code: a scaler.run failure is discarded with .ok()
and the worker then reads stride(0)/data(0) of the still-empty destination
frame, which panics and kills the video decode thread.  On a run whose second
frame fails to convert, only the first frame is published, the worker does not
survive, and the third (perfectly good) frame is never delivered — the frame
is not skipped and decoding does not continue. -/
theorem video_conversion_failure_aborts_worker :
    ((videoWorkerRun 1 1 1
        [⟨some 0, some ⟨4, [1, 2, 3, 4]⟩⟩, ⟨some 1, none⟩,
          ⟨some 2, some ⟨4, [9, 9, 9, 9]⟩⟩]).1.map (fun f => f.video_data)
      = [[1, 2, 3, 4]]) ∧
    (videoWorkerRun 1 1 1
        [⟨some 0, some ⟨4, [1, 2, 3, 4]⟩⟩, ⟨some 1, none⟩,
          ⟨some 2, some ⟨4, [9, 9, 9, 9]⟩⟩]).2 = false :=
  ⟨rfl, rfl⟩

/-- Counterexample to C2 as stated: the audio worker emits a main-loop chunk
with pts 1 and then, while draining the resampler after end-of-stream, a chunk
stamped with the flush pts 0, so the emitted timestamp sequence [1, 0] is not
non-decreasing. -/
theorem worker_pts_monotone_counterexample :
    ((audioWorkerRun 1 1 [⟨some 1, true, 1, [5]⟩] [⟨1, [6]⟩]).map (fun c => c.pts)) = [1, 0] ∧
    ¬ List.Pairwise (fun a b : ℚ => a ≤ b)
        ((audioWorkerRun 1 1 [⟨some 1, true, 1, [5]⟩] [⟨1, [6]⟩]).map (fun c => c.pts)) := by
  have he : ((audioWorkerRun 1 1 [⟨some 1, true, 1, [5]⟩] [⟨1, [6]⟩]).map
      (fun c => c.pts)) = [1, 0] := by
    simp [audioWorkerRun, audioLoopBody, drainBody, ptsSeconds]
  refine ⟨he, fun hp => ?_⟩
  rw [he] at hp
  have h10 : (1 : ℚ) ≤ 0 := List.rel_of_pairwise_cons hp (List.mem_singleton.mpr rfl)
  exact absurd h10 (by norm_num)

lemma videoWorkerRun_pts_sublist (tb : ℚ) (w h : Nat) (fs : List DecodedVideoFrame) :
    ((videoWorkerRun tb w h fs).1.map (fun f => f.pts)).Sublist
      (fs.map (fun f => ptsSeconds tb f.nativePts)) := by
  induction fs with
  | nil => simp [videoWorkerRun]
  | cons f rest ih =>
    cases hb : videoLoopBody tb w h f with
    | none => simp [videoWorkerRun, hb]
    | some vf =>
      simp only [videoWorkerRun, hb, List.map_cons]
      rw [videoLoopBody_pts tb w h f vf hb]
      exact List.Sublist.cons₂ _ ih

lemma audio_filterMap_pts_sublist (tb : ℚ) (channels : Nat) (fs : List DecodedAudioFrame) :
    ((fs.filterMap (audioLoopBody tb channels)).map (fun c => c.pts)).Sublist
      (fs.map (fun f => ptsSeconds tb f.nativePts)) := by
  induction fs with
  | nil => simp
  | cons f rest ih =>
    cases hb : audioLoopBody tb channels f with
    | none =>
      rw [List.filterMap_cons_none hb, List.map_cons]
      exact ih.cons _
    | some af =>
      rw [List.filterMap_cons_some hb, List.map_cons, List.map_cons,
        audioLoopBody_pts tb channels f af hb]
      exact List.Sublist.cons₂ _ ih

lemma pairwise_ptsSeconds {α : Type} (tb : ℚ) (htb : 0 ≤ tb) (g : α → Option Int)
    (l : List α) (hmono : List.Pairwise (fun a b => (g a).getD 0 ≤ (g b).getD 0) l) :
    List.Pairwise (fun a b : ℚ => a ≤ b) (l.map (fun x => ptsSeconds tb (g x))) := by
  rw [List.pairwise_map]
  refine hmono.imp ?_
  intro a b hab
  unfold ptsSeconds
  apply mul_le_mul_of_nonneg_right ?_ htb
  exact_mod_cast hab

lemma drain_pts_zero (channels : Nat) (drain : List DrainChunk) :
    (drain.filterMap (drainBody channels)).map (fun c => c.pts) =
      List.replicate (drain.filterMap (drainBody channels)).length 0 := by
  induction drain with
  | nil => rfl
  | cons c cs ih =>
    by_cases hlt : c.outData.length < c.outSamples * channels
    · simp [List.filterMap_cons, drainBody, hlt, ih]
    · simp [List.filterMap_cons, drainBody, hlt, ih, List.replicate_succ]

/-- C2 amended: as long as the decoder hands each worker frames whose native
timestamps (with unwrap_or(0) applied) are non-decreasing and the stream time
base is non-negative, the video worker's published timestamps and the audio
worker's main-loop (pre-drain) timestamps are non-decreasing; but every chunk
emitted while draining the resampler after end-of-stream is stamped with the
flush pts 0, which can be smaller than previously emitted timestamps. -/
theorem worker_pts_monotone_amended (tb : ℚ) (w h channels : Nat)
    (vfs : List DecodedVideoFrame) (afs : List DecodedAudioFrame)
    (drain : List DrainChunk) (htb : 0 ≤ tb)
    (hv : List.Pairwise (fun a b => a.nativePts.getD 0 ≤ b.nativePts.getD 0) vfs)
    (ha : List.Pairwise (fun a b => a.nativePts.getD 0 ≤ b.nativePts.getD 0) afs) :
    List.Pairwise (fun a b : ℚ => a ≤ b)
      ((videoWorkerRun tb w h vfs).1.map (fun f => f.pts)) ∧
    List.Pairwise (fun a b : ℚ => a ≤ b)
      ((afs.filterMap (audioLoopBody tb channels)).map (fun c => c.pts)) ∧
    (drain.filterMap (drainBody channels)).map (fun c => c.pts) =
      List.replicate (drain.filterMap (drainBody channels)).length 0 := by
  refine ⟨?_, ?_, drain_pts_zero channels drain⟩
  · exact List.Pairwise.sublist (videoWorkerRun_pts_sublist tb w h vfs)
      (pairwise_ptsSeconds tb htb (fun f => f.nativePts) vfs hv)
  · exact List.Pairwise.sublist (audio_filterMap_pts_sublist tb channels afs)
      (pairwise_ptsSeconds tb htb (fun f => f.nativePts) afs ha)

/-- Witness for the amended C2 at a concrete input: two video frames, two audio
frames with non-decreasing native pts, and one drain chunk. -/
theorem worker_pts_monotone_amended_witness :
    List.Pairwise (fun a b : ℚ => a ≤ b)
      ((videoWorkerRun 1 1 1
        [⟨some 0, some ⟨4, [1, 2, 3, 4]⟩⟩, ⟨some 1, some ⟨4, [5, 6, 7, 8]⟩⟩]).1.map
          (fun f => f.pts)) ∧
    List.Pairwise (fun a b : ℚ => a ≤ b)
      (([⟨some 0, true, 1, [5]⟩, ⟨some 2, true, 1, [6]⟩].filterMap
          (audioLoopBody 1 1)).map (fun c => c.pts)) ∧
    ([(⟨1, [6]⟩ : DrainChunk)].filterMap (drainBody 1)).map (fun c => c.pts) =
      List.replicate ([(⟨1, [6]⟩ : DrainChunk)].filterMap (drainBody 1)).length 0 :=
  worker_pts_monotone_amended 1 1 1 1
    [⟨some 0, some ⟨4, [1, 2, 3, 4]⟩⟩, ⟨some 1, some ⟨4, [5, 6, 7, 8]⟩⟩]
    [⟨some 0, true, 1, [5]⟩, ⟨some 2, true, 1, [6]⟩] [⟨1, [6]⟩]
    zero_le_one (by decide) (by decide)

/-! ## Frame presenter (main.rs 97-135, FrameSource::Video arm)

On each presentation tick (RedrawRequested), App::current_frame (1) refills
the local look-ahead buffer from the video-frame channel with non-blocking
try_recv up to FRAME_BUFFER_SIZE, (2) reads the audio clock, (3) pops due
frames (front pts ≤ audio time), the last popped frame becoming the current
frame, and (4) returns the current frame (initially a black placeholder,
modelled as `none`).  The channel is modelled as the FIFO list of frames not
yet received; `received` is a ghost log of every frame ever moved out of the
channel, used only to state the invariant. -/

/-- One presentation tick as seen by the presenter: the frames that arrived on
the channel since the previous tick, and the audio-clock value read by this
tick. -/
structure Tick where
  arrivals : List VideoFrame
  audioTime : ℚ
deriving Repr

/-- Presenter state: pending channel content, local look-ahead buffer, current
frame (none = initial black frame), and the ghost log of received frames. -/
structure PState where
  channel : List VideoFrame
  buffer : List VideoFrame
  current : Option VideoFrame
  received : List VideoFrame
deriving Repr

/-- Refill loop (main.rs 108-115): while the buffer has space, try_recv moves
the next channel frame into the buffer; it stops, without blocking, as soon as
the channel is empty or the buffer is full. -/
def refill : List VideoFrame → List VideoFrame → List VideoFrame →
    List VideoFrame × List VideoFrame × List VideoFrame
  | [], buf, rec => ([], buf, rec)
  | f :: rest, buf, rec =>
    if buf.length < FRAME_BUFFER_SIZE then refill rest (buf ++ [f]) (rec ++ [f])
    else (f :: rest, buf, rec)

/-- Frame-selection loop (main.rs 122-130): while the buffer front is due
(pts ≤ audio time), pop it and make it the current frame, discarding the
previous one. -/
def popDue : List VideoFrame → ℚ → Option VideoFrame →
    List VideoFrame × Option VideoFrame
  | [], _, cur => ([], cur)
  | f :: rest, t, cur =>
    if f.pts ≤ t then popDue rest t (some f)
    else (f :: rest, cur)

/-- One call of App::current_frame on the Video frame source. -/
def tick (s : PState) (t : Tick) : PState :=
  let r := refill (s.channel ++ t.arrivals) s.buffer s.received
  let p := popDue r.2.1 t.audioTime s.current
  ⟨r.1, p.1, p.2, r.2.2⟩

/-- State at session start (main.rs 693-697): empty buffer, black current
frame. -/
def initPState : PState := ⟨[], [], none, []⟩

/-- A sequence of presentation ticks. -/
def runTicks (s : PState) : List Tick → PState
  | [] => s
  | t :: ts => runTicks (tick s t) ts

lemma refill_len (ch : List VideoFrame) :
    ∀ buf rec, buf.length ≤ FRAME_BUFFER_SIZE →
      (refill ch buf rec).2.1.length ≤ FRAME_BUFFER_SIZE := by
  induction ch with
  | nil => intro buf rec hb; exact hb
  | cons f rest ih =>
    intro buf rec hb
    by_cases hlt : buf.length < FRAME_BUFFER_SIZE
    · rw [refill, if_pos hlt]
      exact ih _ _ (by simp; omega)
    · rw [refill, if_neg hlt]
      exact hb

lemma popDue_len (buf : List VideoFrame) :
    ∀ t cur, (popDue buf t cur).1.length ≤ buf.length := by
  induction buf with
  | nil => intro t cur; exact Nat.le_refl _
  | cons f rest ih =>
    intro t cur
    by_cases hle : f.pts ≤ t
    · rw [popDue, if_pos hle]
      exact Nat.le_succ_of_le (ih t (some f))
    · rw [popDue, if_neg hle]

lemma runTicks_buffer_le (ticks : List Tick) :
    ∀ s : PState, s.buffer.length ≤ FRAME_BUFFER_SIZE →
      (runTicks s ticks).buffer.length ≤ FRAME_BUFFER_SIZE := by
  induction ticks with
  | nil => intro s hs; exact hs
  | cons t ts ih =>
    intro s hs
    refine ih _ ?_
    show (popDue (refill (s.channel ++ t.arrivals) s.buffer s.received).2.1
        t.audioTime s.current).1.length ≤ FRAME_BUFFER_SIZE
    exact Nat.le_trans (popDue_len _ _ _) (refill_len _ _ _ hs)

/-- C9: across any sequence of presentation ticks the presenter's local
look-ahead buffer never exceeds FRAME_BUFFER_SIZE (= 30) frames, and the
refill loop is non-blocking: it is a total function that, on an empty channel,
returns immediately with the buffer unchanged instead of waiting for frames. -/
theorem presenter_queue_bounded_nonblocking (ticks : List Tick)
    (buf rec : List VideoFrame) :
    (runTicks initPState ticks).buffer.length ≤ FRAME_BUFFER_SIZE ∧
    refill [] buf rec = ([], buf, rec) :=
  ⟨runTicks_buffer_le ticks initPState (by simp [initPState, FRAME_BUFFER_SIZE]), rfl⟩

/-- Last element of l when nonempty, else the fallback c: the value of the
current frame after popping the frames of l on top of a previous current c. -/
def lastOr (l : List VideoFrame) (c : Option VideoFrame) : Option VideoFrame :=
  match l.getLast? with
  | none => c
  | some x => some x

lemma lastOr_cons (a : VideoFrame) (l : List VideoFrame) (c : Option VideoFrame) :
    lastOr (a :: l) c = lastOr l (some a) := by
  cases l with
  | nil => rfl
  | cons b t =>
    unfold lastOr
    rw [List.getLast?_cons_cons]
    cases hx : (b :: t).getLast? with
    | none => simp at hx
    | some x => rfl

lemma getLast?_append_lastOr (l1 l2 : List VideoFrame) :
    (l1 ++ l2).getLast? = lastOr l2 l1.getLast? := by
  cases l2 with
  | nil => simp [lastOr]
  | cons b t =>
    rw [List.getLast?_append_cons l1 b t]
    unfold lastOr
    cases hx : (b :: t).getLast? with
    | none => simp at hx
    | some x => rfl

lemma sorted_foldl_max (l : List ℚ) :
    ∀ a : ℚ, List.Pairwise (fun x y => x ≤ y) (a :: l) →
      some (l.foldl max a) = (a :: l).getLast? := by
  induction l with
  | nil => intro a _; rfl
  | cons b t ih =>
    intro a hp
    have hab : a ≤ b := List.rel_of_pairwise_cons hp (List.mem_cons_self b t)
    have hp' : List.Pairwise (fun x y => x ≤ y) (b :: t) := hp.of_cons
    rw [List.foldl_cons, max_eq_right hab, List.getLast?_cons_cons]
    exact ih b hp'

lemma max?_eq_getLast?_of_sorted (l : List ℚ)
    (hp : List.Pairwise (fun x y => x ≤ y) l) : l.max? = l.getLast? := by
  cases l with
  | nil => rfl
  | cons a t => exact sorted_foldl_max t a hp

lemma refill_moves (ch : List VideoFrame) :
    ∀ buf rec, ∃ moved,
      ch = moved ++ (refill ch buf rec).1 ∧
      (refill ch buf rec).2.1 = buf ++ moved ∧
      (refill ch buf rec).2.2 = rec ++ moved := by
  induction ch with
  | nil =>
    intro buf rec
    exact ⟨[], rfl, by simp [refill], by simp [refill]⟩
  | cons f rest ih =>
    intro buf rec
    by_cases hlt : buf.length < FRAME_BUFFER_SIZE
    · obtain ⟨m, h1, h2, h3⟩ := ih (buf ++ [f]) (rec ++ [f])
      have heq : refill (f :: rest) buf rec = refill rest (buf ++ [f]) (rec ++ [f]) := by
        simp only [refill]
        rw [if_pos hlt]
      refine ⟨f :: m, ?_, ?_, ?_⟩
      · rw [heq, List.cons_append, ← h1]
      · rw [heq, h2, List.append_assoc]
        rfl
      · rw [heq, h3, List.append_assoc]
        rfl
    · have heq : refill (f :: rest) buf rec = (f :: rest, buf, rec) := by
        simp only [refill]
        rw [if_neg hlt]
      exact ⟨[], by rw [heq]; rfl, by rw [heq]; simp, by rw [heq]; simp⟩

lemma popDue_spec (buf : List VideoFrame) :
    ∀ (t : ℚ) (cur : Option VideoFrame),
      List.Pairwise (fun a b => a.pts ≤ b.pts) buf →
      ∃ due,
        buf = due ++ (popDue buf t cur).1 ∧
        (∀ f ∈ due, f.pts ≤ t) ∧
        (∀ f ∈ (popDue buf t cur).1, t < f.pts) ∧
        (popDue buf t cur).2 = lastOr due cur := by
  induction buf with
  | nil =>
    intro t cur _
    exact ⟨[], rfl, by simp, by simp [popDue], rfl⟩
  | cons f rest ih =>
    intro t cur hp
    have hf : ∀ g ∈ rest, f.pts ≤ g.pts := fun g hg => List.rel_of_pairwise_cons hp hg
    have hp' := hp.of_cons
    by_cases hle : f.pts ≤ t
    · have heq : popDue (f :: rest) t cur = popDue rest t (some f) := by
        simp only [popDue]
        rw [if_pos hle]
      obtain ⟨due, h1, h2, h3, h4⟩ := ih t (some f) hp'
      refine ⟨f :: due, ?_, ?_, ?_, ?_⟩
      · rw [heq, List.cons_append, ← h1]
      · intro g hg
        rcases List.mem_cons.mp hg with rfl | hg'
        · exact hle
        · exact h2 g hg'
      · rw [heq]
        exact h3
      · rw [heq, h4, lastOr_cons]
    · have heq : popDue (f :: rest) t cur = (f :: rest, cur) := by
        simp only [popDue]
        rw [if_neg hle]
      refine ⟨[], by rw [heq]; rfl, by simp, ?_, by rw [heq]; rfl⟩
      intro g hg
      rw [heq] at hg
      rcases List.mem_cons.mp hg with rfl | hg'
      · exact not_le.mp hle
      · exact lt_of_lt_of_le (not_le.mp hle) (hf g hg')

/-- Invariant of the presenter state after a tick executed at audio time T:
the ghost received log splits into the already-popped frames — all due at some
clock value ≤ T, the last of which is the current frame — followed by the
buffered frames, all strictly beyond T. -/
def presenterInv (s : PState) (T : ℚ) : Prop :=
  ∃ popped : List VideoFrame,
    s.received = popped ++ s.buffer ∧
    s.current = popped.getLast? ∧
    (∀ f ∈ popped, f.pts ≤ T) ∧
    (∀ f ∈ s.buffer, T < f.pts)

lemma tick_inv (s : PState) (T0 : ℚ) (t : Tick)
    (hInv : presenterInv s T0) (hT : T0 ≤ t.audioTime)
    (hmono : List.Pairwise (fun a b => a.pts ≤ b.pts)
      (s.received ++ (s.channel ++ t.arrivals))) :
    presenterInv (tick s t) t.audioTime ∧
    (tick s t).received ++ (tick s t).channel =
      s.received ++ (s.channel ++ t.arrivals) := by
  obtain ⟨popped, hrec, hcur, hpop, hbuf⟩ := hInv
  obtain ⟨moved, hm1, hm2, hm3⟩ :=
    refill_moves (s.channel ++ t.arrivals) s.buffer s.received
  have hsub : (s.buffer ++ moved).Sublist (s.received ++ (s.channel ++ t.arrivals)) := by
    rw [hrec, hm1, List.append_assoc popped s.buffer]
    refine List.Sublist.trans ?_ (List.sublist_append_right popped _)
    rw [← List.append_assoc s.buffer moved _]
    exact List.sublist_append_left _ _
  have hbufPW : List.Pairwise (fun a b => a.pts ≤ b.pts) (s.buffer ++ moved) :=
    hmono.sublist hsub
  have hbufPW' : List.Pairwise (fun a b => a.pts ≤ b.pts)
      (refill (s.channel ++ t.arrivals) s.buffer s.received).2.1 := by
    rw [hm2]; exact hbufPW
  obtain ⟨due, hd1, hd2, hd3, hd4⟩ :=
    popDue_spec (refill (s.channel ++ t.arrivals) s.buffer s.received).2.1
      t.audioTime s.current hbufPW'
  rw [hm2] at hd1 hd3 hd4
  have hrec2 : (tick s t).received = s.received ++ moved := hm3
  have hch2 : (tick s t).channel =
      (refill (s.channel ++ t.arrivals) s.buffer s.received).1 := rfl
  have hbuf2 : (tick s t).buffer =
      (popDue (s.buffer ++ moved) t.audioTime s.current).1 := by
    show (popDue (refill (s.channel ++ t.arrivals) s.buffer s.received).2.1
        t.audioTime s.current).1 = _
    rw [hm2]
  have hcur2 : (tick s t).current =
      (popDue (s.buffer ++ moved) t.audioTime s.current).2 := by
    show (popDue (refill (s.channel ++ t.arrivals) s.buffer s.received).2.1
        t.audioTime s.current).2 = _
    rw [hm2]
  constructor
  · refine ⟨popped ++ due, ?_, ?_, ?_, ?_⟩
    · rw [hrec2, hbuf2, hrec, List.append_assoc popped s.buffer moved,
        List.append_assoc]
      conv_lhs => rw [hd1]
    · rw [hcur2, hd4, hcur, getLast?_append_lastOr]
    · intro f hf
      rcases List.mem_append.mp hf with hf' | hf'
      · exact le_trans (hpop f hf') hT
      · exact hd2 f hf'
    · intro f hf
      rw [hbuf2] at hf
      exact hd3 f hf
  · rw [hrec2, hch2, List.append_assoc, ← hm1]

/-- Concatenation, in channel order, of the frames arriving across a sequence
of ticks. -/
def arrivalsFlat (ticks : List Tick) : List VideoFrame :=
  (ticks.map (fun t => t.arrivals)).flatten

/-- Audio-clock value read by the last of a sequence of ticks (T before any
tick). -/
def lastTime (T : ℚ) : List Tick → ℚ
  | [] => T
  | t :: ts => lastTime t.audioTime ts

lemma lastTime_append_single (T : ℚ) (l : List Tick) (t : Tick) :
    lastTime T (l ++ [t]) = t.audioTime := by
  induction l generalizing T with
  | nil => rfl
  | cons u us ih => exact ih u.audioTime

lemma runTicks_inv (ticks : List Tick) :
    ∀ (s : PState) (T : ℚ),
      presenterInv s T →
      List.Pairwise (fun a b => a.pts ≤ b.pts)
        ((s.received ++ s.channel) ++ arrivalsFlat ticks) →
      List.Chain (fun a b => a ≤ b) T (ticks.map (fun k => k.audioTime)) →
      presenterInv (runTicks s ticks) (lastTime T ticks) ∧
      List.Pairwise (fun a b => a.pts ≤ b.pts)
        ((runTicks s ticks).received ++ (runTicks s ticks).channel) := by
  induction ticks with
  | nil =>
    intro s T hInv hmono _
    refine ⟨hInv, ?_⟩
    simpa [arrivalsFlat] using hmono
  | cons t ts ih =>
    intro s T hInv hmono hchain
    rw [List.map_cons, List.chain_cons] at hchain
    have harr : arrivalsFlat (t :: ts) = t.arrivals ++ arrivalsFlat ts := by
      simp [arrivalsFlat]
    have hm1 : List.Pairwise (fun a b => a.pts ≤ b.pts)
        (s.received ++ (s.channel ++ t.arrivals)) := by
      refine hmono.sublist ?_
      rw [← List.append_assoc, harr, ← List.append_assoc]
      exact List.sublist_append_left _ _
    obtain ⟨hInv', hcons⟩ := tick_inv s T t hInv hchain.1 hm1
    have hm2 : List.Pairwise (fun a b => a.pts ≤ b.pts)
        (((tick s t).received ++ (tick s t).channel) ++ arrivalsFlat ts) := by
      rw [hcons, List.append_assoc, List.append_assoc, ← harr, ← List.append_assoc]
      exact hmono
    exact ih (tick s t) t.audioTime hInv' hm2 hchain.2

/-- The greatest pts among the frames of the list that are due at time T
(none when no frame is due). -/
def dueMaxPts (frames : List VideoFrame) (T : ℚ) : Option ℚ :=
  ((frames.filter (fun f => decide (f.pts ≤ T))).map (fun f => f.pts)).max?

/-- C1: over any run of presentation ticks in which the frames arriving on the
video-frame channel carry non-decreasing pts and the audio clock read at each
tick is non-decreasing (and non-negative, as AudioClock.time always is), the
current frame after the final tick is exactly the received frame of greatest
pts among those due (pts ≤ audio time read at that tick) — in particular its
pts is ≤ that clock value, later due frames supersede earlier ones, and no
frame is shown out of order; it is none (the initial black frame) exactly when
no received frame is due yet. -/
theorem frame_presenter_shows_newest_due (ticks : List Tick) (t : Tick)
    (hmono : List.Pairwise (fun a b => a.pts ≤ b.pts) (arrivalsFlat (ticks ++ [t])))
    (hclock : List.Chain (fun a b => a ≤ b) 0
      ((ticks ++ [t]).map (fun k => k.audioTime))) :
    (runTicks initPState (ticks ++ [t])).current.map (fun f => f.pts)
      = dueMaxPts (runTicks initPState (ticks ++ [t])).received t.audioTime := by
  obtain ⟨hInv, hpw⟩ := runTicks_inv (ticks ++ [t]) initPState 0
    ⟨[], rfl, rfl, by simp, by simp [initPState]⟩
    (by simpa [initPState] using hmono) hclock
  rw [lastTime_append_single] at hInv
  obtain ⟨popped, hrec, hcur, hpop, hbuf⟩ := hInv
  have hrecPW : List.Pairwise (fun a b => a.pts ≤ b.pts)
      (runTicks initPState (ticks ++ [t])).received :=
    hpw.sublist (List.sublist_append_left _ _)
  have hfilter : (runTicks initPState (ticks ++ [t])).received.filter
      (fun f => decide (f.pts ≤ t.audioTime)) = popped := by
    rw [hrec, List.filter_append, List.filter_eq_self.mpr ?hpos,
      List.filter_eq_nil_iff.mpr ?hneg, List.append_nil]
    case hpos => intro f hf; exact decide_eq_true (hpop f hf)
    case hneg =>
      intro f hf
      simp only [decide_eq_true_eq]
      exact not_le.mpr (hbuf f hf)
  have hppw : List.Pairwise (fun a b : ℚ => a ≤ b) (popped.map (fun f => f.pts)) := by
    rw [List.pairwise_map]
    rw [hrec] at hrecPW
    exact hrecPW.sublist (List.sublist_append_left _ _)
  rw [dueMaxPts, hfilter, max?_eq_getLast?_of_sorted _ hppw, List.getLast?_map, hcur]

/-- Witness for C1: a single tick at audio time 1 receiving one frame with
pts 0; the current frame is that frame, the maximal due frame received. -/
theorem frame_presenter_shows_newest_due_witness :
    (runTicks initPState ([] ++ [⟨[⟨0, []⟩], 1⟩])).current.map (fun f => f.pts)
      = dueMaxPts (runTicks initPState ([] ++ [⟨[⟨0, []⟩], 1⟩])).received 1 :=
  frame_presenter_shows_newest_due [] ⟨[⟨0, []⟩], 1⟩ (by simp [arrivalsFlat])
    (List.Chain.cons zero_le_one List.Chain.nil)

end VidPlayer
